import Mathlib

/-!
Verification of the RESP codec, command dispatcher, replication handshake and
key-value store of the rust-redis repository.

The Rust sources are shallowly embedded: Rust `String`/`&str` values become
`List Char` (the repository only ever parses buffers it has already checked
with `std::str::from_utf8`, and all wire data in scope is ASCII, so one `Char`
corresponds to one byte and Rust's byte-oriented `len`/indexing coincides with
list length), fallible functions return `Except String` or `Option` (a Rust
`panic!`/`unimplemented!` is modelled as an `Except.error` carrying the panic
message), the store's `HashMap`/`BTreeMap` become association lists with the
corresponding lookup/insert/remove semantics, and the monotonic clock
(`Utc::now()`) becomes an explicit `now : Int` parameter (milliseconds).
-/

namespace RustRedis

/-- Shorthand turning a Lean string literal into the `List Char` representation
used for Rust strings throughout this development. -/
def strL (s : String) : List Char := s.toList

/-- `DELIMITER` from parser/payload.rs line 1: the RESP CRLF separator. -/
def crlf : List Char := ['\r', '\n']

/-- Model of Rust's `str::split_once("\r\n")` (used with `DELIMITER` in
parser/payload.rs): split at the first occurrence of CRLF, returning the part
before it and the part after it; `none` when no CRLF occurs. -/
def splitOnceCRLF : List Char → Option (List Char × List Char)
  | [] => none
  | c :: rest =>
    if c = '\r' ∧ rest.headD ' ' = '\n' then some ([], rest.tail)
    else
      match splitOnceCRLF rest with
      | none => none
      | some (a, b) => some (c :: a, b)

/-- `true` when the string contains no CRLF occurrence, i.e. `split_once`
would fail on it. -/
def crlfFree (s : List Char) : Bool := (splitOnceCRLF s).isNone

/-- All characters are ASCII digits. -/
def isDigits (s : List Char) : Bool := s.all (fun c => c.isDigit)

/-- Numeric value of a string of ASCII digits, most significant first. -/
def digitsVal (s : List Char) : Nat := s.foldl (fun acc c => acc * 10 + (c.toNat - 48)) 0

/-- Model of Rust's `str::parse::<usize>()`: an optional leading `+`, then one
or more ASCII digits.  (Rust additionally fails on overflow; Lean's `Nat` is
unbounded, and every length parsed in this repository fits in `usize`.) -/
def parseNat? (s : List Char) : Option Nat :=
  if s.isEmpty then none
  else
    let ds := if s.headD ' ' = '+' then s.tail else s
    if ds.isEmpty then none
    else if isDigits ds then some (digitsVal ds) else none

/-- Model of Rust's `str::parse::<i64>()`: an optional sign, then one or more
ASCII digits. -/
def parseInt? (s : List Char) : Option Int :=
  if s.isEmpty then none
  else
    let ds := if s.headD ' ' = '-' ∨ s.headD ' ' = '+' then s.tail else s
    if ds.isEmpty then none
    else if isDigits ds then
      some (if s.headD ' ' = '-' then -(digitsVal ds : Int) else (digitsVal ds : Int))
    else none

/-- Decimal rendering of a natural number, fuelled so that it is structurally
recursive (the fuel `n + 1` used by `natChars` always suffices since `n / 10 < n`). -/
def natCharsAux : Nat → Nat → List Char
  | 0, _ => []
  | fuel + 1, n =>
    if n < 10 then [Nat.digitChar n]
    else natCharsAux fuel (n / 10) ++ [Nat.digitChar (n % 10)]

/-- Model of Rust's `format!("{}", n)` for an unsigned integer: its decimal
digits, most significant first. -/
def natChars (n : Nat) : List Char := natCharsAux (n + 1) n

/-- Model of Rust's `format!("{}", i)` / `to_string()` for a signed integer. -/
def intChars (i : Int) : List Char :=
  if i < 0 then '-' :: natChars i.natAbs else natChars i.toNat

/-- The `Payload` enum of parser/payload.rs lines 58-64: the tagged RESP term.
`rdbFile` carries raw bytes (`Vec<u8>`). -/
inductive Payload where
  | simpleString : List Char → Payload
  | bulkString : List Char → Payload
  | array : List Payload → Payload
  | rdbFile : List Nat → Payload

/-- The `Command` enum of parser/command.rs lines 8-18. -/
inductive Command where
  | ping | echo | get | set | typeCmd | xadd | info | replconf | psync

/-- Rust's `str::to_lowercase` restricted to the ASCII data this server
handles: lower-case every character. -/
def toLowerChars (s : List Char) : List Char := s.map Char.toLower

/-- `Command::parse` (parser/command.rs lines 41-54): case-insensitive match
of a string against the command table. -/
def Command.parse (s : List Char) : Option Command :=
  let l := toLowerChars s
  if l = strL "ping" then some .ping
  else if l = strL "echo" then some .echo
  else if l = strL "get" then some .get
  else if l = strL "set" then some .set
  else if l = strL "type" then some .typeCmd
  else if l = strL "xadd" then some .xadd
  else if l = strL "info" then some .info
  else if l = strL "replconf" then some .replconf
  else if l = strL "psync" then some .psync
  else none

/-- `Command`'s `Display` impl (parser/command.rs lines 73-85): upper-case
rendering. -/
def Command.render : Command → List Char
  | .ping => strL "PING"
  | .echo => strL "ECHO"
  | .get => strL "GET"
  | .set => strL "SET"
  | .typeCmd => strL "TYPE"
  | .xadd => strL "XADD"
  | .info => strL "INFO"
  | .replconf => strL "REPLCONF"
  | .psync => strL "PSYNC"

/-- `Payload`'s `Display` impl (parser/payload.rs lines 365-372): a
`BulkString` displays as its contents; every other variant displays as the
literal text `unimplemented!`.  This is what `to_string()` produces wherever
the client code extracts keys, values and arguments from payloads. -/
def Payload.toDisplay : Payload → List Char
  | .bulkString s => s
  | _ => strL "unimplemented!"

/-- `Payload::is_command` (parser/payload.rs lines 107-113): a payload is a
command iff it is a `BulkString` matching the command table. -/
def Payload.is_command (p : Payload) : Bool :=
  match p with
  | .bulkString value => (Command.parse value).isSome
  | _ => false

mutual

/-- `Payload::redis_encode` (parser/payload.rs lines 374-392).  The `RdbFile`
arm of the Rust code is `unimplemented!()` (a panic), modelled as `none`;
the other three arms always produce a string. -/
def redis_encode : Payload → Option (List Char)
  | .simpleString value => some ('+' :: (value ++ crlf))
  | .bulkString value => some ('$' :: (natChars value.length ++ crlf ++ value ++ crlf))
  | .array elements =>
    match encodeElems elements with
    | none => none
    | some body => some ('*' :: (natChars elements.length ++ crlf ++ body))
  | .rdbFile _ => none

/-- The element loop of the `Array` arm of `redis_encode`: concatenation of
the encodings of the elements, in order. -/
def encodeElems : List Payload → Option (List Char)
  | [] => some []
  | p :: ps =>
    match redis_encode p, encodeElems ps with
    | some a, some b => some (a ++ b)
    | _, _ => none

end

/-- `Payload::build_bulk_string_array` (parser/payload.rs lines 85-91): an
`Array` of `BulkString`s, one per input string. -/
def build_bulk_string_array (strs : List (List Char)) : Payload :=
  .array (strs.map .bulkString)

/-- The wire bytes of `Payload::BulkString(s).redis_encode()`; `bulkEnc_spec`
below proves it agrees with `redis_encode`. -/
def bulkEnc (s : List Char) : List Char :=
  '$' :: (natChars s.length ++ crlf ++ s ++ crlf)

/-- `Payload::from_simple_string` (parser/payload.rs lines 252-260): body up
to the first CRLF, consumed count `body.len() + 3`.  The input `s` includes
the leading `+` (the callers pass the whole remaining buffer). -/
def from_simple_string (s : List Char) : Except String (Payload × Nat) :=
  match splitOnceCRLF (s.drop 1) with
  | none => .error "No ending delimiter"
  | some (payload, _) => .ok (.simpleString payload, payload.length + 3)

/-- `Payload::from_bulk_string` (parser/payload.rs lines 286-306): length `L`
from the digits before the first CRLF, then exactly `L` bytes of data.  Note
that the Rust code only checks `rest.len() < length`; it does not require or
inspect the trailing CRLF, yet counts it in the consumed total
`1 + digits + 2 + L + 2`. -/
def from_bulk_string (s : List Char) : Except String (Payload × Nat) :=
  match splitOnceCRLF (s.drop 1) with
  | none => .error "Failed splitting at delimiter."
  | some (length_str, rest) =>
    match parseNat? length_str with
    | none => .error "Failed to parse len as usize"
    | some length =>
      let start_index := length_str.length + 2
      if rest.length < length then
        .error "The data segment is shorter than the specified length."
      else .ok (.bulkString (rest.take length), 1 + start_index + length + 2)

/-- The element loop of `Payload::from_array` (parser/payload.rs lines
351-359), abstracted over the parser `p` used for each element so that the
fuelled `from_char` below can tie the recursive knot.  Each iteration reads
the first character of the remaining buffer, parses one element, and slices
the buffer by the consumed count (`rest = &rest[step..]`; a `step` beyond the
buffer is the Rust slice panic, modelled as an error). -/
def parseElemsWith (p : Char → List Char → Except String (Payload × Nat)) :
    Nat → List Char → Except String (List Payload × Nat)
  | 0, _ => .ok ([], 0)
  | k + 1, rest =>
    match rest.head? with
    | none => .error "Payload empty"
    | some c =>
      match p c rest with
      | .error e => .error e
      | .ok (pl, step) =>
        if rest.length < step then .error "byte index out of range"
        else
          match parseElemsWith p k (rest.drop step) with
          | .error e => .error e
          | .ok (ps, off) => .ok (pl :: ps, off + step)

/-- `Payload::from_array` (parser/payload.rs lines 342-362), abstracted over
the element parser: element count from the digits before the first CRLF, then
that many recursively parsed elements; consumed count is the header plus the
elements' cumulative offsets. -/
def from_arrayWith (p : Char → List Char → Except String (Payload × Nat)) (s : List Char) :
    Except String (Payload × Nat) :=
  match splitOnceCRLF (s.drop 1) with
  | none => .error "Failed splitting at delimiter."
  | some (number_of_elements_str, rest) =>
    match parseNat? number_of_elements_str with
    | none => .error "invalid digit found in string"
    | some number_of_elements =>
      match parseElemsWith p number_of_elements rest with
      | .error e => .error e
      | .ok (parsed_elements, cumulative_offset) =>
        .ok (.array parsed_elements,
             cumulative_offset + 1 + number_of_elements_str.length + 2)

/-- Fuelled form of `Payload::from_char`/`from_byte` (parser/payload.rs lines
188-228): dispatch on the type byte.  The Rust recursion carries no fuel; fuel
is consumed only when descending into an array, and each descent strictly
shrinks the buffer (the array header is at least 4 characters), so any fuel
larger than the buffer length makes the two definitions agree. -/
def from_charF : Nat → Char → List Char → Except String (Payload × Nat)
  | 0, _, _ => .error "recursion fuel exhausted"
  | fuel + 1, c, s =>
    if c = '+' then from_simple_string s
    else if c = '*' then from_arrayWith (from_charF fuel) s
    else if c = '$' then from_bulk_string s
    else .error "Unimplemented payload type"

/-- `Payload::from_byte` (parser/payload.rs lines 188-196): parse one payload
from the front of `s`, whose first character is `b`. -/
def from_byte (b : Char) (s : List Char) : Except String (Payload × Nat) :=
  from_charF (s.length + 1) b s

/-- The grouping loop of `RedisProtocolParser::parse` (parser/protocol.rs
lines 54-71): split the decoded items of a top-level array into command
groups; each command-identifying bulk string starts a new group. -/
def groupLoop : List Payload → List Payload → List (List Payload) → List (List Payload)
  | [], current_group, result =>
    if current_group.isEmpty then result else result ++ [current_group]
  | val :: arr, current_group, result =>
    if val.is_command then
      if current_group.isEmpty then groupLoop arr (current_group ++ [val]) result
      else groupLoop arr [val] (result ++ [current_group])
    else groupLoop arr (current_group ++ [val]) result

/-- `RedisProtocolParser::parse` (parser/protocol.rs lines 39-81): read the
whole buffer, parse ONE payload from its front with `from_byte` (the consumed
count is discarded, `let (payload, _) = ...`), and post-process: a top-level
array is regrouped into one `Array` per command; any other payload is
returned as the single element. -/
def RedisProtocolParser.parse (buf : List Char) : Except String (List Payload) :=
  match buf.head? with
  | none => .error "Empty buffer"
  | some payload_type =>
    match from_byte payload_type buf with
    | .error e => .error e
    | .ok (payload, _) =>
      match payload with
      | .array arr => .ok ((groupLoop arr [] []).map Payload.array)
      | p => .ok [p]

/-! ## The key-value store (store/store.rs, store/redis_type.rs) -/

/-- Lookup in an association list, modelling `HashMap::get`. -/
def hmGet {α : Type} : List (List Char × α) → List Char → Option α
  | [], _ => none
  | (k', v) :: rest, k => if k = k' then some v else hmGet rest k

/-- Insertion into an association list, modelling `HashMap::insert`: replace
the value of an existing key, otherwise add the binding.  (A Rust `HashMap`
iterates in unspecified order; only order-independent facts — lookup, size —
are read off this model.) -/
def hmInsert {α : Type} : List (List Char × α) → List Char → α → List (List Char × α)
  | [], k, v => [(k, v)]
  | (k', v') :: rest, k, v =>
    if k = k' then (k', v) :: rest else (k', v') :: hmInsert rest k v

/-- Removal from an association list, modelling `HashMap::remove` (a no-op
when the key is absent). -/
def hmRemove {α : Type} : List (List Char × α) → List Char → List (List Char × α)
  | [], _ => []
  | (k', v') :: rest, k => if k = k' then rest else (k', v') :: hmRemove rest k

/-- The `Stream` struct of store/redis_type.rs lines 28-31: an id (`key`) and
a `HashMap<String, String>` of entries, modelled as an association list. -/
structure Stream where
  key : List Char
  entries : List (List Char × List Char)

/-- The entry loop of `Stream::new` (store/redis_type.rs lines 36-40):
consume the argument payloads two at a time (`while let (Some(k), Some(v))`),
inserting `k.to_string() ↦ v.to_string()` into the map; a trailing odd
argument is dropped. -/
def streamEntriesLoop : List Payload → List (List Char × List Char) → List (List Char × List Char)
  | k :: v :: rest, entries => streamEntriesLoop rest (hmInsert entries k.toDisplay v.toDisplay)
  | _, entries => entries

/-- `Stream::new` (store/redis_type.rs lines 34-46). -/
def Stream.new (key : List Char) (args : List Payload) : Stream :=
  { key := key, entries := streamEntriesLoop args [] }

/-- The `RedisType` enum of store/redis_type.rs lines 6-9. -/
inductive RedisType where
  | string : List Char → RedisType
  | stream : Stream → RedisType

/-- `RedisType::as_inner` (store/redis_type.rs lines 11-16): the inner string
of a `String`, and the fixed text `Invalid call for stream.` for a `Stream`. -/
def RedisType.as_inner : RedisType → List Char
  | .string s => s
  | .stream _ => strL "Invalid call for stream."

/-- `RedisType::type_str` (store/redis_type.rs lines 18-23). -/
def RedisType.type_str : RedisType → List Char
  | .string _ => strL "+string" ++ crlf
  | .stream _ => strL "+stream" ++ crlf

/-- `KeyValueStore` (store/store.rs lines 13-16): `data` models the
`HashMap<String, RedisType>`; `expiries` models the
`BTreeMap<DateTime<Utc>, Vec<String>>` as an instant-sorted association list
(instants are `Int` milliseconds). -/
structure KeyValueStore where
  data : List (List Char × RedisType)
  expiries : List (Int × List (List Char))

/-- `KeyValueStore::new` (store/store.rs lines 19-24). -/
def KeyValueStore.new : KeyValueStore := { data := [], expiries := [] }

/-- `BTreeMap::entry(t).or_default().push(k)` on the sorted association list:
append `k` to the bucket at instant `t`, creating the bucket (in sorted
position) if absent. -/
def btreeInsertPush : List (Int × List (List Char)) → Int → List Char → List (Int × List (List Char))
  | [], t, k => [(t, [k])]
  | (t', ks) :: rest, t, k =>
    if t < t' then (t, [k]) :: (t', ks) :: rest
    else if t = t' then (t', ks ++ [k]) :: rest
    else (t', ks) :: btreeInsertPush rest t k

/-- `KeyValueStore::set_expiry` (store/store.rs lines 53-63): schedule `key`
to expire at `now + expiry_ms` and reply `+OK`. -/
def KeyValueStore.set_expiry (now : Int) (s : KeyValueStore) (key : List Char) (expiry_ms : Int) :
    KeyValueStore × List Char :=
  ({ s with expiries := btreeInsertPush s.expiries (now + expiry_ms) key }, strL "+OK" ++ crlf)

/-- `KeyValueStore::set` (store/store.rs lines 25-37): optionally schedule an
expiry, then insert/overwrite the binding; reply `+OK`.  A pre-existing
expiry entry for `key` is NOT removed. -/
def KeyValueStore.set (now : Int) (s : KeyValueStore) (key : List Char) (value : RedisType)
    (expiry_ms : Option Int) : KeyValueStore × List Char :=
  let s :=
    match expiry_ms with
    | some expiry => (s.set_expiry now key expiry).1
    | none => s
  ({ s with data := hmInsert s.data key value }, strL "+OK" ++ crlf)

/-- The `keys_to_remove` collection of `clean_expiries` (store/store.rs lines
68-71): every key of every bucket with instant `≤ now`
(`expiries.range(..=now).flat_map(|(_, keys)| keys.clone())`). -/
def cleanKeys (now : Int) (expiries : List (Int × List (List Char))) : List (List Char) :=
  ((expiries.filter (fun e => e.1 ≤ now)).map (fun e => e.2)).flatten

/-- `KeyValueStore::clean_expiries` (store/store.rs lines 65-79): collect
every key in a bucket with instant `≤ now` (`range(..=now)`), remove each
from `data`, then retain only the buckets with instant `≥ now`
(`split_off(&now)` keeps keys at-or-after `now`, so a bucket at exactly `now`
is both evicted from `data` and retained in `expiries`). -/
def KeyValueStore.clean_expiries (now : Int) (s : KeyValueStore) : KeyValueStore :=
  let keys_to_remove := cleanKeys now s.expiries
  { data := keys_to_remove.foldl (fun d k => hmRemove d k) s.data,
    expiries := s.expiries.filter (fun e => now ≤ e.1) }

/-- `KeyValueStore::get` (store/store.rs lines 39-51): run the expiry sweep,
then look the key up; a hit replies with the bulk encoding of
`value.as_inner()`, a miss with the null bulk `$-1`. -/
def KeyValueStore.get (now : Int) (s : KeyValueStore) (key : List Char) :
    KeyValueStore × List Char :=
  let s := s.clean_expiries now
  match hmGet s.data key with
  | some value => (s, bulkEnc value.as_inner)
  | none => (s, strL "$-1" ++ crlf)

/-- `KeyValueStore::get_type` (store/store.rs lines 80-85): look the key up
(no expiry sweep) and reply with its `type_str`, or `+none` on a miss.  The
Rust method takes `&self`; the unchanged store is returned to make the
absence of mutation explicit in the state-passing embedding. -/
def KeyValueStore.get_type (s : KeyValueStore) (key : List Char) : List Char × KeyValueStore :=
  (match hmGet s.data key with
   | some value => value.type_str
   | none => strL "+none" ++ crlf, s)

/-! ## The client: dispatcher, replication, handshake (client.rs) -/

/-- The `Value` enum of parser/payload.rs lines 408-413. -/
inductive Value where
  | array : List Payload → Value
  | string : List Char → Value
  | empty : Value

/-- The `ClientRole` enum of client.rs lines 354-368, restricted to the data
the dispatcher consults: a master carries its replication id, offset and the
addresses of the registered replica connections (`slave_connections`); a
slave carries its master's address, echoed id and offset. -/
inductive ClientRole where
  | master (replication_id : List Char) (replication_offset : Nat)
      (slave_connections : List (List Char)) : ClientRole
  | slave (master_address : List Char) (master_id : List Char) (master_offset : Int) : ClientRole

/-- `ClientRole::psync` (client.rs lines 371-394): a slave renders the PSYNC
command from its echoed id and offset; a master renders the FULLRESYNC simple
string. -/
def ClientRole.psyncMsg : ClientRole → List Char
  | .slave _ master_id master_offset =>
    (redis_encode (build_bulk_string_array
      [strL "PSYNC", master_id, intChars master_offset])).getD []
  | .master replication_id replication_offset _ =>
    '+' :: ((strL "FULLRESYNC " ++ replication_id ++ [' '] ++ natChars replication_offset) ++ crlf)

/-- The four handshake messages of `RedisClient::handshake` (client.rs lines
183-204), in the order they are written to the primary.  The first is
`build_bulk_string_array(vec!["ping"])` (lower-case), the second and third
are the string literals of lines 191-192 — the `listening-port` value is the
hard-coded literal `6380`; the replica's actually configured port
(`listening_port`, from `--port`) is never consulted — and the fourth is
`self.role.psync()`. -/
def handshakeMessages (listening_port : Nat) (role : ClientRole) : List (List Char) :=
  [(redis_encode (build_bulk_string_array [strL "ping"])).getD [],
   strL "*3\r\n$8\r\nREPLCONF\r\n$14\r\nlistening-port\r\n$4\r\n6380\r\n",
   strL "*3\r\n$8\r\nREPLCONF\r\n$4\r\ncapa\r\n$6\r\npsync2\r\n",
   role.psyncMsg]

/-- Observable actions of the dispatcher, in program order: a write of `msg`
on the connection to the replica registered at `addr` (the fan-out of
`RedisClient::propagate`, client.rs lines 293-326), or a store mutation
`store.set(key, value, expiry_ms)`. -/
inductive Event where
  | replicaWrite (addr : List Char) (msg : List Char) : Event
  | storeSet (key : List Char) (value : RedisType) (expiry_ms : Option Int) : Event

/-- `RedisClient::process_set` (client.rs lines 327-352), as the store
mutation it performs: no extra argument means `set(key, value, None)`; a `px`
argument with an integer value means `set(key, value, Some(ms))`; anything
else is an error. -/
def process_set (key : List Char) (value : RedisType) (arg arg_value : Option Payload) :
    Except String Event :=
  match arg with
  | some arg =>
    match arg_value with
    | none => .error "Missing arg specifier"
    | some arg_value =>
      match parseInt? arg_value.toDisplay with
      | none => .error "Incorrect arg type expected an integer."
      | some ms =>
        if toLowerChars arg.toDisplay = strL "px" then
          .ok (.storeSet key value (some ms))
        else .error "unimplemented arg."
  | none => .ok (.storeSet key value none)

/-- The `Command::Set` arm of `RedisClient::process_command` (client.rs lines
64-94), as the ordered list of observable events it performs plus the
response string.  The key and value are `x[0].to_string()` and
`RedisType::String(x[1].to_string())` (fewer than two elements is an index
panic, modelled as an error).  A master first re-encodes the canonical
command `build_bulk_string_array(["SET", key, value.as_inner()])` and writes
it to every registered replica (`propagate`, awaited before the local
mutation), then applies `process_set`; a slave only applies `process_set`. -/
def processCommandSet (role : ClientRole) (contents : Value) :
    Except String (List Event × List Char) :=
  match contents with
  | .array (x0 :: x1 :: rest) =>
    let key := x0.toDisplay
    let value := RedisType.string x1.toDisplay
    let arg := rest.head?
    let arg_value := rest.tail.head?
    match process_set key value arg arg_value with
    | .error e => .error e
    | .ok mutation =>
      match role with
      | .master _ _ slave_connections =>
        let payload := (redis_encode (build_bulk_string_array
          [strL "SET", key, value.as_inner])).getD []
        .ok ((slave_connections.map (fun addr => Event.replicaWrite addr payload)) ++ [mutation],
             strL "+OK" ++ crlf)
      | .slave _ _ _ => .ok ([mutation], strL "+OK" ++ crlf)
  | .array _ => .error "index out of bounds"
  | _ => .error "Cant store data in given format."

/-- The `Command::XAdd` arm of `RedisClient::process_command` (client.rs
lines 104-117), as the store mutation it performs plus the response string.
`x.split_at(2)` yields the stream key and entry id; the remaining elements
are the field/value arguments, but the Rust code passes `value[1..]` to
`Stream::new`, skipping the first of them (fewer than three elements is a
slice panic, modelled as an error).  The response is the bulk encoding of the
entry id. -/
def processCommandXAdd (contents : Value) : Except String (Event × List Char) :=
  match contents with
  | .array (x0 :: x1 :: _v0 :: vrest) =>
    let stream_key := x0.toDisplay
    let entry_id := x1.toDisplay
    let value := RedisType.stream (Stream.new entry_id vrest)
    .ok (.storeSet stream_key value none, bulkEnc entry_id)
  | .array _ => .error "slice index out of range"
  | _ => .error "Incorrect input type."

/-! ## Structural measures on payloads (for the codec round-trip proof) -/

mutual

/-- Number of payload nodes: an upper bound on the parser fuel a payload's
encoding can consume (each array descent costs one unit of fuel). -/
def psize : Payload → Nat
  | .simpleString _ => 1
  | .bulkString _ => 1
  | .array elems => 1 + psizeList elems
  | .rdbFile _ => 1

/-- Total `psize` over a list of payloads. -/
def psizeList : List Payload → Nat
  | [] => 0
  | p :: ps => psize p + psizeList ps

end

mutual

/-- The payloads whose encoding survives the round trip: simple-string bodies
must be CRLF-free (the decoder stops at the first CRLF) and `RdbFile` may not
occur (its encoder panics).  Bulk strings are unrestricted: the decoder reads
their body by counted length. -/
def encWF : Payload → Bool
  | .simpleString v => crlfFree v
  | .bulkString _ => true
  | .array elems => encWFList elems
  | .rdbFile _ => false

/-- `encWF` for every element of a list. -/
def encWFList : List Payload → Bool
  | [] => true
  | p :: ps => encWF p && encWFList ps

end

/-! ## Arithmetic and string helper lemmas -/

theorem digitChar_isDigit {d : Nat} (h : d < 10) : (Nat.digitChar d).isDigit = true := by
  interval_cases d <;> decide

theorem digitChar_toNat {d : Nat} (h : d < 10) : (Nat.digitChar d).toNat = 48 + d := by
  interval_cases d <;> decide

theorem natCharsAux_stable (n : Nat) :
    ∀ f1 f2, n < f1 → n < f2 → natCharsAux f1 n = natCharsAux f2 n := by
  induction n using Nat.strong_induction_on with
  | _ n ih =>
    intro f1 f2 h1 h2
    match f1, f2 with
    | fa + 1, fb + 1 =>
      simp only [natCharsAux]
      by_cases hn : n < 10
      · simp [hn]
      · have hd : n / 10 < n := Nat.div_lt_self (by omega) (by omega)
        simp only [hn, if_false]
        rw [ih (n / 10) hd fa fb (by omega) (by omega)]

theorem natChars_eq (n : Nat) :
    natChars n = if n < 10 then [Nat.digitChar n] else natChars (n / 10) ++ [Nat.digitChar (n % 10)] := by
  have h0 : natChars n =
      if n < 10 then [Nat.digitChar n] else natCharsAux n (n / 10) ++ [Nat.digitChar (n % 10)] := rfl
  rw [h0]
  by_cases hn : n < 10
  · rw [if_pos hn, if_pos hn]
  · have hd : n / 10 < n := Nat.div_lt_self (by omega) (by omega)
    rw [if_neg hn, if_neg hn, natCharsAux_stable (n / 10) n (n / 10 + 1) hd (by omega)]
    rfl

theorem natChars_ne_nil (n : Nat) : natChars n ≠ [] := by
  rw [natChars_eq]
  by_cases hn : n < 10 <;> simp [hn]

theorem mem_natChars_isDigit (n : Nat) : ∀ c ∈ natChars n, c.isDigit = true := by
  induction n using Nat.strong_induction_on with
  | _ n ih =>
    intro c hc
    rw [natChars_eq] at hc
    by_cases hn : n < 10
    · simp [hn] at hc
      subst hc; exact digitChar_isDigit hn
    · have hd : n / 10 < n := Nat.div_lt_self (by omega) (by omega)
      simp [hn] at hc
      rcases hc with hc | hc
      · exact ih (n / 10) hd c hc
      · subst hc; exact digitChar_isDigit (Nat.mod_lt n (by omega))

theorem digitsVal_append_last (s : List Char) (c : Char) :
    digitsVal (s ++ [c]) = 10 * digitsVal s + (c.toNat - 48) := by
  simp [digitsVal, List.foldl_append]
  omega

theorem digitsVal_natChars (n : Nat) : digitsVal (natChars n) = n := by
  induction n using Nat.strong_induction_on with
  | _ n ih =>
    rw [natChars_eq]
    by_cases hn : n < 10
    · simp [hn, digitsVal, digitChar_toNat hn]
    · have hd : n / 10 < n := Nat.div_lt_self (by omega) (by omega)
      simp only [hn, if_false]
      rw [digitsVal_append_last, ih (n / 10) hd, digitChar_toNat (Nat.mod_lt n (by omega))]
      omega

theorem isDigits_natChars (n : Nat) : isDigits (natChars n) = true := by
  simp only [isDigits, List.all_eq_true]
  exact mem_natChars_isDigit n

theorem isDigit_ne_cr {c : Char} (h : c.isDigit = true) : c ≠ '\r' := by
  intro hc; subst hc; simp at h

theorem isDigit_ne_plus {c : Char} (h : c.isDigit = true) : c ≠ '+' := by
  intro hc; subst hc; simp at h

theorem parseNat?_digits (s : List Char) (h1 : s ≠ []) (h2 : isDigits s = true) :
    parseNat? s = some (digitsVal s) := by
  match s, h1 with
  | c :: rest, _ =>
    have hc : c.isDigit = true := by
      simp only [isDigits, List.all_eq_true] at h2
      exact h2 c (by simp)
    simp only [parseNat?, List.isEmpty_cons, List.headD_cons]
    rw [if_neg (by simp)]
    simp only [isDigit_ne_plus hc, if_false, List.isEmpty_cons]
    rw [if_neg (by simp), if_pos h2]

theorem parseNat?_natChars (n : Nat) : parseNat? (natChars n) = some n := by
  rw [parseNat?_digits (natChars n) (natChars_ne_nil n) (isDigits_natChars n), digitsVal_natChars]

theorem crlfFree_cons (c : Char) (s : List Char) :
    crlfFree (c :: s) = true ↔ ¬(c = '\r' ∧ s.headD ' ' = '\n') ∧ crlfFree s = true := by
  simp only [crlfFree, splitOnceCRLF]
  by_cases h : c = '\r' ∧ s.headD ' ' = '\n'
  · rw [if_pos h]
    simp only [Option.isNone_some, Bool.false_eq_true, false_iff, not_and]
    exact fun hh => absurd h.2 (hh h.1)
  · rw [if_neg h]
    cases hs : splitOnceCRLF s with
    | none => simpa [hs] using fun hc hh => h ⟨hc, hh⟩
    | some ab => simp [hs]

theorem crlfFree_of_no_cr (s : List Char) (h : ∀ c ∈ s, c ≠ '\r') : crlfFree s = true := by
  induction s with
  | nil => rfl
  | cons c rest ih =>
    refine (crlfFree_cons c rest).mpr ⟨fun hx => h c (by simp) hx.1, ?_⟩
    exact ih (fun x hx => h x (by simp [hx]))

theorem crlfFree_natChars (n : Nat) : crlfFree (natChars n) = true :=
  crlfFree_of_no_cr _ (fun c hc => isDigit_ne_cr (mem_natChars_isDigit n c hc))

theorem splitOnceCRLF_append (a b : List Char) (h : crlfFree a = true) :
    splitOnceCRLF (a ++ '\r' :: '\n' :: b) = some (a, b) := by
  induction a with
  | nil => simp [splitOnceCRLF]
  | cons c a' ih =>
    obtain ⟨hhead, htail⟩ := (crlfFree_cons c a').mp h
    simp only [List.cons_append, splitOnceCRLF, List.append_eq]
    split_ifs with hsp
    · exfalso
      cases a' with
      | nil => simp at hsp
      | cons x a'' => exact hhead ⟨hsp.1, by simpa using hsp.2⟩
    · rw [ih htail]

theorem splitOnceCRLF_length (x : List Char) :
    ∀ a b, splitOnceCRLF x = some (a, b) → a.length + 2 + b.length = x.length := by
  induction x with
  | nil => intro a b h; simp [splitOnceCRLF] at h
  | cons c rest ih =>
    intro a b h
    simp only [splitOnceCRLF] at h
    split_ifs at h with hc
    · simp only [Option.some.injEq, Prod.mk.injEq] at h
      obtain ⟨ha, hb⟩ := h
      subst ha
      subst hb
      cases rest with
      | nil => simp at hc
      | cons x' rest' =>
        simp only [List.length_nil, List.tail_cons, List.length_cons]
        omega
    · cases hs : splitOnceCRLF rest with
      | none => rw [hs] at h; simp at h
      | some pr =>
        obtain ⟨a', b'⟩ := pr
        rw [hs] at h
        simp only [Option.some.injEq, Prod.mk.injEq] at h
        obtain ⟨ha, hb⟩ := h
        subst ha
        subst hb
        have := ih a' b' hs
        simp only [List.length_cons]
        omega

/-! ## The parser fuel is irrelevant once it exceeds the buffer length

The Rust `from_char`/`from_array` recursion carries no fuel; the fuelled
embedding agrees with it because fuel is spent only when descending into an
array, and the array header (at least `*`, one count digit and CRLF) strictly
shrinks the buffer each time.  The lemmas below make that argument formal:
any two fuels exceeding the buffer length produce identical results, so
`from_byte`'s choice of `length + 1` is canonical. -/

theorem parseElemsWith_congr (pa pb : Char → List Char → Except String (Payload × Nat)) :
    ∀ (count : Nat) (r : List Char),
      (∀ (c : Char) (r' : List Char), r'.length ≤ r.length → pa c r' = pb c r') →
      parseElemsWith pa count r = parseElemsWith pb count r := by
  intro count
  induction count with
  | zero => intro r _; rfl
  | succ k ihc =>
    intro r hcong
    cases r with
    | nil => rfl
    | cons c0 rtail =>
      simp only [parseElemsWith, List.head?_cons, hcong c0 (c0 :: rtail) le_rfl]
      cases hres : pb c0 (c0 :: rtail) with
      | error e => simp only [hres]
      | ok pr =>
        obtain ⟨pl, step⟩ := pr
        simp only [hres]
        split_ifs with hlt
        · rfl
        · rw [ihc ((c0 :: rtail).drop step) (fun c' r' hr' => hcong c' r'
            (le_trans hr' (by simp only [List.length_drop]; omega)))]

theorem from_charF_stable (k : Nat) :
    ∀ (s : List Char), s.length ≤ k → ∀ (f1 f2 : Nat) (c : Char),
      s.length < f1 → s.length < f2 → from_charF f1 c s = from_charF f2 c s := by
  induction k with
  | zero =>
    intro s hs f1 f2 c h1 h2
    match f1, f2, h1, h2 with
    | a + 1, b + 1, _, _ =>
      have hnil : s = [] := List.length_eq_zero.mp (by omega)
      subst hnil
      simp only [from_charF]
      by_cases hplus : c = '+'
      · rw [if_pos hplus, if_pos hplus]
      by_cases hstar : c = '*'
      · rw [if_neg hplus, if_neg hplus, if_pos hstar, if_pos hstar]
        rfl
      · rw [if_neg hplus, if_neg hplus, if_neg hstar, if_neg hstar]
  | succ k ihk =>
    intro s hs f1 f2 c h1 h2
    match f1, f2, h1, h2 with
    | a + 1, b + 1, _, _ =>
      simp only [from_charF]
      by_cases hplus : c = '+'
      · rw [if_pos hplus, if_pos hplus]
      by_cases hstar : c = '*'
      · rw [if_neg hplus, if_neg hplus, if_pos hstar, if_pos hstar]
        cases hsp : splitOnceCRLF (s.drop 1) with
        | none => simp only [from_arrayWith, hsp]
        | some pr =>
          obtain ⟨numStr, rest⟩ := pr
          cases hpn : parseNat? numStr with
          | none => simp only [from_arrayWith, hsp, hpn]
          | some count =>
            have hlen := splitOnceCRLF_length (s.drop 1) numStr rest hsp
            have hdl : (s.drop 1).length = s.length - 1 := by
              simp [List.length_drop]
            have hcong : ∀ (c' : Char) (r' : List Char), r'.length ≤ rest.length →
                from_charF a c' r' = from_charF b c' r' := by
              intro c' r' hr'
              exact ihk r' (by omega) a b c' (by omega) (by omega)
            have hE := parseElemsWith_congr (from_charF a) (from_charF b) count rest hcong
            simp only [from_arrayWith, hsp, hpn, hE]
      · rw [if_neg hplus, if_neg hplus, if_neg hstar, if_neg hstar]

/-- Any fuel exceeding the buffer length computes what `from_byte` computes:
the fuelled embedding has a well-defined fuel-free meaning, matching the
unfuelled Rust recursion. -/
theorem from_charF_eq_from_byte (b : Char) (s : List Char) (f : Nat) (hf : s.length < f) :
    from_charF f b s = from_byte b s :=
  from_charF_stable s.length s le_rfl f (s.length + 1) b hf (by omega)

/-! ## Association-list (HashMap model) lemmas -/

theorem hmGet_hmInsert_self {α : Type} (d : List (List Char × α)) (k : List Char) (v : α) :
    hmGet (hmInsert d k v) k = some v := by
  induction d with
  | nil => simp [hmGet, hmInsert]
  | cons e rest ih =>
    obtain ⟨k', v'⟩ := e
    by_cases h : k = k' <;> simp [hmGet, hmInsert, h, ih]

theorem hmGet_none_of_not_mem {α : Type} (d : List (List Char × α)) (k : List Char)
    (h : k ∉ d.map Prod.fst) : hmGet d k = none := by
  induction d with
  | nil => rfl
  | cons e rest ih =>
    obtain ⟨k', v'⟩ := e
    simp only [List.map_cons, List.mem_cons] at h
    push_neg at h
    simp [hmGet, h.1, ih h.2]

theorem hmGet_hmRemove_ne {α : Type} (d : List (List Char × α)) (k k' : List Char)
    (h : k ≠ k') : hmGet (hmRemove d k') k = hmGet d k := by
  induction d with
  | nil => rfl
  | cons e rest ih =>
    obtain ⟨k'', v''⟩ := e
    by_cases h1 : k' = k''
    · subst h1
      simp [hmRemove, hmGet, h]
    · by_cases h2 : k = k'' <;> simp [hmRemove, hmGet, h1, h2, ih]

theorem keys_hmRemove_sublist {α : Type} (d : List (List Char × α)) (k : List Char) :
    ((hmRemove d k).map Prod.fst).Sublist (d.map Prod.fst) := by
  induction d with
  | nil => simp [hmRemove]
  | cons e rest ih =>
    obtain ⟨k', v'⟩ := e
    by_cases h : k = k'
    · simp only [hmRemove, h, if_true, List.map_cons]
      exact (List.sublist_cons_self _ _)
    · simp only [hmRemove, h, if_false, List.map_cons]
      exact ih.cons₂ _

theorem hmGet_hmRemove_self {α : Type} (d : List (List Char × α)) (k : List Char)
    (h : (d.map Prod.fst).Nodup) : hmGet (hmRemove d k) k = none := by
  induction d with
  | nil => rfl
  | cons e rest ih =>
    obtain ⟨k', v'⟩ := e
    simp only [List.map_cons, List.nodup_cons] at h
    by_cases h1 : k = k'
    · subst h1
      simp only [hmRemove, if_pos rfl]
      exact hmGet_none_of_not_mem rest k h.1
    · simp [hmRemove, hmGet, h1, Ne.symm h1, ih h.2]

theorem hmGet_none_hmRemove {α : Type} (d : List (List Char × α)) (k k' : List Char)
    (h : hmGet d k = none) : hmGet (hmRemove d k') k = none := by
  by_cases hk : k = k'
  · subst hk
    induction d with
    | nil => rfl
    | cons e rest ih =>
      obtain ⟨k'', v''⟩ := e
      by_cases h1 : k = k''
      · subst h1; simp [hmGet] at h
      · simp only [hmGet, if_neg h1] at h
        simp [hmRemove, hmGet, Ne.symm h1, h1, ih h]
  · rw [hmGet_hmRemove_ne d k k' hk]; exact h

theorem nodup_keys_hmRemove {α : Type} (d : List (List Char × α)) (k : List Char)
    (h : (d.map Prod.fst).Nodup) : ((hmRemove d k).map Prod.fst).Nodup :=
  (keys_hmRemove_sublist d k).nodup h

theorem mem_keys_hmInsert {α : Type} (d : List (List Char × α)) (k : List Char) (v : α) :
    ∀ x ∈ (hmInsert d k v).map Prod.fst, x ∈ d.map Prod.fst ∨ x = k := by
  induction d with
  | nil => simp [hmInsert]
  | cons e rest ih =>
    obtain ⟨k', v'⟩ := e
    intro x hx
    simp only [hmInsert] at hx
    by_cases h : k = k'
    · rw [if_pos h] at hx
      simp only [List.map_cons, List.mem_cons] at hx ⊢
      tauto
    · rw [if_neg h] at hx
      simp only [List.map_cons, List.mem_cons] at hx ⊢
      rcases hx with hx | hx
      · tauto
      · rcases ih x hx with h1 | h1 <;> tauto

theorem nodup_keys_hmInsert {α : Type} (d : List (List Char × α)) (k : List Char) (v : α)
    (h : (d.map Prod.fst).Nodup) : ((hmInsert d k v).map Prod.fst).Nodup := by
  induction d with
  | nil => simp [hmInsert]
  | cons e rest ih =>
    obtain ⟨k', v'⟩ := e
    simp only [List.map_cons, List.nodup_cons] at h
    simp only [hmInsert]
    by_cases h1 : k = k'
    · rw [if_pos h1]
      simp only [List.map_cons, List.nodup_cons]
      exact ⟨h.1, h.2⟩
    · rw [if_neg h1]
      simp only [List.map_cons, List.nodup_cons]
      refine ⟨fun hx => ?_, ih h.2⟩
      rcases mem_keys_hmInsert rest k v k' hx with h2 | h2
      · exact h.1 h2
      · exact h1 h2.symm

theorem hmGet_foldl_remove_not_mem {α : Type} (ks : List (List Char))
    (d : List (List Char × α)) (k : List Char) (h : k ∉ ks) :
    hmGet (ks.foldl (fun d' k' => hmRemove d' k') d) k = hmGet d k := by
  induction ks generalizing d with
  | nil => rfl
  | cons a ks' ih =>
    simp only [List.mem_cons] at h
    push_neg at h
    simp only [List.foldl_cons]
    rw [ih _ h.2, hmGet_hmRemove_ne d k a h.1]

theorem hmGet_foldl_remove_none {α : Type} (ks : List (List Char))
    (d : List (List Char × α)) (k : List Char) (h : hmGet d k = none) :
    hmGet (ks.foldl (fun d' k' => hmRemove d' k') d) k = none := by
  induction ks generalizing d with
  | nil => exact h
  | cons a ks' ih =>
    simp only [List.foldl_cons]
    exact ih _ (hmGet_none_hmRemove d k a h)

theorem hmGet_foldl_remove_mem {α : Type} (ks : List (List Char))
    (d : List (List Char × α)) (k : List Char) (hk : k ∈ ks)
    (h : (d.map Prod.fst).Nodup) :
    hmGet (ks.foldl (fun d' k' => hmRemove d' k') d) k = none := by
  induction ks generalizing d with
  | nil => simp at hk
  | cons a ks' ih =>
    simp only [List.foldl_cons]
    by_cases h1 : k = a
    · subst h1
      exact hmGet_foldl_remove_none ks' _ k (hmGet_hmRemove_self d k h)
    · simp only [List.mem_cons] at hk
      exact ih (hmRemove d a) (hk.resolve_left h1) (nodup_keys_hmRemove d a h)

/-! ## Expiry-index (BTreeMap model) lemmas -/

theorem cleanKeys_nil (now : Int) : cleanKeys now [] = [] := rfl

theorem cleanKeys_cons (now : Int) (e : Int × List (List Char)) (E : List (Int × List (List Char))) :
    cleanKeys now (e :: E) = (if e.1 ≤ now then e.2 else []) ++ cleanKeys now E := by
  by_cases h : e.1 ≤ now <;> simp [cleanKeys, List.filter_cons, h]

theorem mem_cleanKeys (now : Int) (E : List (Int × List (List Char))) (x : List Char) :
    x ∈ cleanKeys now E ↔ ∃ e ∈ E, e.1 ≤ now ∧ x ∈ e.2 := by
  induction E with
  | nil => simp [cleanKeys_nil]
  | cons e E' ih =>
    rw [cleanKeys_cons]
    by_cases h : e.1 ≤ now <;> simp [h, ih] <;> tauto

theorem mem_cleanKeys_insert (now : Int) (E : List (Int × List (List Char)))
    (T : Int) (k0 x : List Char) :
    x ∈ cleanKeys now (btreeInsertPush E T k0) ↔
      x ∈ cleanKeys now E ∨ (x = k0 ∧ T ≤ now) := by
  induction E with
  | nil =>
    by_cases h : T ≤ now <;>
      simp [btreeInsertPush, cleanKeys_cons, cleanKeys_nil, h]
  | cons e E' ih =>
    obtain ⟨t', ks⟩ := e
    simp only [btreeInsertPush]
    split_ifs with h1 h2
    · rw [cleanKeys_cons]
      by_cases hT : T ≤ now <;> simp [hT, cleanKeys_cons] <;> tauto
    · subst h2
      rw [cleanKeys_cons, cleanKeys_cons]
      by_cases hT : T ≤ now <;> simp [hT] <;> tauto
    · rw [cleanKeys_cons, cleanKeys_cons]
      by_cases ht' : t' ≤ now <;> simp [ht', ih] <;> tauto

/-! ## Claim theorems: the store (C3, C4, C9, C10) -/

/-- C1: claimed — parsing a buffer holding several complete RESP payloads
yields every payload it contains (e.g. two concatenated SETs produce two
commands).  The code does not: `RedisProtocolParser::parse` invokes
`from_byte` once and discards the consumed count, so on a buffer holding two
complete SET commands it returns only the first; the second is silently
dropped.  This theorem evaluates the parser at that failing input. -/
theorem C1_parse_drops_second_pipelined_command :
    RedisProtocolParser.parse
      (strL "*3\r\n$3\r\nSET\r\n$3\r\nfoo\r\n$3\r\nbar\r\n*3\r\n$3\r\nSET\r\n$3\r\nbaz\r\n$3\r\nqux\r\n") =
      .ok [.array [.bulkString (strL "SET"), .bulkString (strL "foo"), .bulkString (strL "bar")]] := rfl

/-- C3: after `set(k, v, None)`, `get(k)` returns exactly the bulk encoding
`$<|v|>\r\n<v>\r\n`, and `get` on an absent key returns exactly `$-1\r\n`.
The first part assumes no expiry bucket mentions `k` (the claim's setting of
sequences of expiry-free `set`s; a stale expiry entry for `k` would evict it
during `get`'s sweep). -/
theorem C3_set_get_roundtrip (s : KeyValueStore) (k v : List Char) (t0 t : Int) :
    ((∀ e ∈ s.expiries, k ∉ e.2) →
      (KeyValueStore.get t (KeyValueStore.set t0 s k (.string v) none).1 k).2 =
        '$' :: (natChars v.length ++ crlf ++ v ++ crlf)) ∧
    (hmGet s.data k = none →
      (KeyValueStore.get t s k).2 = strL "$-1" ++ crlf) := by
  constructor
  · intro hk
    have hnk : k ∉ cleanKeys t s.expiries := by
      intro hmem
      rcases (mem_cleanKeys t s.expiries k).mp hmem with ⟨e, he, _, hx⟩
      exact hk e he hx
    simp only [KeyValueStore.get, KeyValueStore.set, KeyValueStore.clean_expiries]
    rw [hmGet_foldl_remove_not_mem _ _ _ hnk, hmGet_hmInsert_self]
    rfl
  · intro h0
    simp only [KeyValueStore.get, KeyValueStore.clean_expiries]
    rw [hmGet_foldl_remove_none _ _ _ h0]


/-- Witness for `C3_set_get_roundtrip` at the concrete store state of the
spec's round-trip scenario: `SET foo bar` then `GET foo`, and a `GET` on the
absent key `nope`. -/
theorem C3_set_get_roundtrip_witness :
    (KeyValueStore.get 5 (KeyValueStore.set 0 KeyValueStore.new (strL "foo")
        (.string (strL "bar")) none).1 (strL "foo")).2 =
      '$' :: (natChars (strL "bar").length ++ crlf ++ strL "bar" ++ crlf) ∧
    (KeyValueStore.get 5 KeyValueStore.new (strL "nope")).2 = strL "$-1" ++ crlf :=
  ⟨(C3_set_get_roundtrip KeyValueStore.new (strL "foo") (strL "bar") 0 5).1
      (by simp [KeyValueStore.new]),
   (C3_set_get_roundtrip KeyValueStore.new (strL "nope") (strL "bar") 0 5).2 rfl⟩

/-- C4: after `set(k, v, Some(m))` at time `t0` with `m > 0`, a `get(k)` at
any time before `t0 + m` returns the bulk-encoded value, and a `get(k)` at or
after `t0 + m` returns `$-1\r\n`.  The store's `data` keys are assumed
duplicate-free (the `HashMap` invariant) and no prior expiry bucket mentions
`k`. -/
theorem C4_set_with_expiry (s : KeyValueStore) (k v : List Char) (m t0 t : Int)
    (hm : 0 < m) (hnd : (s.data.map Prod.fst).Nodup)
    (hk : ∀ e ∈ s.expiries, k ∉ e.2) :
    (t < t0 + m →
      (KeyValueStore.get t (KeyValueStore.set t0 s k (.string v) (some m)).1 k).2 =
        '$' :: (natChars v.length ++ crlf ++ v ++ crlf)) ∧
    (t0 + m ≤ t →
      (KeyValueStore.get t (KeyValueStore.set t0 s k (.string v) (some m)).1 k).2 =
        strL "$-1" ++ crlf) := by
  constructor
  · intro ht
    have hnk : k ∉ cleanKeys t (btreeInsertPush s.expiries (t0 + m) k) := by
      intro hmem
      rcases (mem_cleanKeys_insert t s.expiries (t0 + m) k k).mp hmem with hin | ⟨_, hT⟩
      · rcases (mem_cleanKeys t s.expiries k).mp hin with ⟨e, he, _, hx⟩
        exact hk e he hx
      · omega
    simp only [KeyValueStore.get, KeyValueStore.set, KeyValueStore.set_expiry,
      KeyValueStore.clean_expiries]
    rw [hmGet_foldl_remove_not_mem _ _ _ hnk, hmGet_hmInsert_self]
    rfl
  · intro ht
    have hink : k ∈ cleanKeys t (btreeInsertPush s.expiries (t0 + m) k) :=
      (mem_cleanKeys_insert t s.expiries (t0 + m) k k).mpr (Or.inr ⟨rfl, ht⟩)
    simp only [KeyValueStore.get, KeyValueStore.set, KeyValueStore.set_expiry,
      KeyValueStore.clean_expiries]
    rw [hmGet_foldl_remove_mem _ _ _ hink (nodup_keys_hmInsert s.data k _ hnd)]

/-- Witness for `C4_set_with_expiry` at the spec's expiry scenario:
`SET foo bar PX 100` at time 0, `GET foo` at time 50 (hit) and at time 150
(expired). -/
theorem C4_set_with_expiry_witness :
    ((KeyValueStore.get 50 (KeyValueStore.set 0 KeyValueStore.new (strL "foo")
        (.string (strL "bar")) (some 100)).1 (strL "foo")).2 =
      '$' :: (natChars (strL "bar").length ++ crlf ++ strL "bar" ++ crlf)) ∧
    ((KeyValueStore.get 150 (KeyValueStore.set 0 KeyValueStore.new (strL "foo")
        (.string (strL "bar")) (some 100)).1 (strL "foo")).2 = strL "$-1" ++ crlf) :=
  ⟨(C4_set_with_expiry KeyValueStore.new (strL "foo") (strL "bar") 100 0 50
      (by decide) (by simp [KeyValueStore.new]) (by simp [KeyValueStore.new])).1 (by decide),
   (C4_set_with_expiry KeyValueStore.new (strL "foo") (strL "bar") 100 0 150
      (by decide) (by simp [KeyValueStore.new]) (by simp [KeyValueStore.new])).2 (by decide)⟩

/-- C9: `get_type(k)` returns `+string\r\n` when `k` holds a `String`,
`+stream\r\n` when it holds a `Stream`, `+none\r\n` when absent, and leaves
the store (both `data` and `expiries`) exactly unchanged — it performs no
expiry sweep. -/
theorem C9_get_type_no_sweep (s : KeyValueStore) (k : List Char) :
    (KeyValueStore.get_type s k).2 = s ∧
    (KeyValueStore.get_type s k).1 =
      (match hmGet s.data k with
       | some value => value.type_str
       | none => strL "+none" ++ crlf) ∧
    (∀ x, (RedisType.string x).type_str = strL "+string" ++ crlf) ∧
    (∀ st, (RedisType.stream st).type_str = strL "+stream" ++ crlf) :=
  ⟨rfl, rfl, fun _ => rfl, fun _ => rfl⟩

/-- C10: `get(k)` on a key holding a `Stream` returns neither the stream
contents nor an error nor the null bulk, but the bulk encoding of the fixed
text `Invalid call for stream.`, i.e. exactly `$24\r\nInvalid call for
stream.\r\n` (provided no stale expiry bucket evicts `k` during the sweep). -/
theorem C10_get_on_stream (s : KeyValueStore) (k : List Char) (st : Stream) (t : Int)
    (hk : ∀ e ∈ s.expiries, k ∉ e.2) (hv : hmGet s.data k = some (.stream st)) :
    (KeyValueStore.get t s k).2 = strL "$24\r\nInvalid call for stream.\r\n" := by
  have hnk : k ∉ cleanKeys t s.expiries := by
    intro hmem
    rcases (mem_cleanKeys t s.expiries k).mp hmem with ⟨e, he, _, hx⟩
    exact hk e he hx
  simp only [KeyValueStore.get, KeyValueStore.clean_expiries]
  rw [hmGet_foldl_remove_not_mem _ _ _ hnk, hv]
  show bulkEnc (RedisType.stream st).as_inner = strL "$24\r\nInvalid call for stream.\r\n"
  simp only [RedisType.as_inner]
  decide

/-- Witness for `C10_get_on_stream` at a concrete store holding a stream
under `st`. -/
theorem C10_get_on_stream_witness :
    (KeyValueStore.get 0
      { data := [(strL "st", .stream { key := strL "1-0", entries := [] })], expiries := [] }
      (strL "st")).2 = strL "$24\r\nInvalid call for stream.\r\n" :=
  C10_get_on_stream
    { data := [(strL "st", .stream { key := strL "1-0", entries := [] })], expiries := [] }
    (strL "st") { key := strL "1-0", entries := [] } 0 (by simp) rfl

/-! ## Claim theorems: bulk-string framing (C7) and XADD (C8) -/

/-- C7 counterexample: the claim says a bulk-string parse fails on every
buffer shorter than `1 + digits + 2 + L + 2` and that the trailing CRLF must
be present.  The 8-character buffer `$4\r\nPING` (shorter than 10, no
trailing CRLF) parses successfully — the code checks only that `L` bytes of
data are available — while still reporting 10 bytes consumed. -/
theorem C7_counterexample :
    from_bulk_string (strL "$4\r\nPING") = .ok (.bulkString (strL "PING"), 10) ∧
    (strL "$4\r\nPING").length = 8 := ⟨rfl, rfl⟩

/-- C7 amended: for a buffer `$<ds>\r\n<rest>` with declared length
`L = digitsVal ds`, the parse fails iff fewer than `L` bytes follow the
length line (i.e. the buffer is shorter than `1 + digits + 2 + L`); the
trailing CRLF after the `L` data bytes is neither required nor inspected,
yet it is counted in the consumed total `1 + digits + 2 + L + 2`. -/
theorem C7_amended (ds rest : List Char) (h1 : ds ≠ []) (h2 : isDigits ds = true) :
    (digitsVal ds ≤ rest.length →
      from_bulk_string ('$' :: (ds ++ crlf ++ rest)) =
        .ok (.bulkString (rest.take (digitsVal ds)), 1 + (ds.length + 2) + digitsVal ds + 2)) ∧
    (rest.length < digitsVal ds →
      from_bulk_string ('$' :: (ds ++ crlf ++ rest)) =
        .error "The data segment is shorter than the specified length.") := by
  have hfree : crlfFree ds = true := by
    refine crlfFree_of_no_cr ds (fun c hc => isDigit_ne_cr ?_)
    simp only [isDigits, List.all_eq_true] at h2
    exact h2 c hc
  have hsplit : splitOnceCRLF (('$' :: (ds ++ crlf ++ rest)).drop 1) = some (ds, rest) := by
    show splitOnceCRLF (ds ++ crlf ++ rest) = some (ds, rest)
    rw [List.append_assoc]
    exact splitOnceCRLF_append ds rest hfree
  constructor
  · intro hlen
    simp only [from_bulk_string]
    rw [hsplit]
    simp only [parseNat?_digits ds h1 h2]
    rw [if_neg (not_lt.mpr hlen)]
  · intro hlen
    simp only [from_bulk_string]
    rw [hsplit]
    simp only [parseNat?_digits ds h1 h2]
    rw [if_pos hlen]

/-- Witness for `C7_amended`: the successful branch at `$4\r\nPING\r\n` and
the failing branch at `$4\r\nPIN`. -/
theorem C7_amended_witness :
    from_bulk_string ('$' :: (['4'] ++ crlf ++ strL "PING\r\n")) =
      .ok (.bulkString ((strL "PING\r\n").take (digitsVal ['4'])),
           1 + (List.length ['4'] + 2) + digitsVal ['4'] + 2) ∧
    from_bulk_string ('$' :: (['4'] ++ crlf ++ strL "PIN")) =
      .error "The data segment is shorter than the specified length." :=
  ⟨(C7_amended ['4'] (strL "PING\r\n") (by decide) (by decide)).1 (by decide),
   (C7_amended ['4'] (strL "PIN") (by decide) (by decide)).2 (by decide)⟩

/-- C8: claimed — an XADD with field/value arguments `f1 v1 f2 v2 …` stores a
Stream whose entries enumerate exactly `(f1, v1), (f2, v2), …` in order.  The
code does not: the XAdd arm passes `value[1..]` to `Stream::new`, dropping
the first field argument and misaligning every subsequent pair (and the
entries live in an unordered `HashMap`).  Evaluating the dispatcher at
`XADD st 1-0 f v` yields a stream with NO entries instead of `[(f, v)]`. -/
theorem C8_xadd_drops_first_field :
    processCommandXAdd (.array [.bulkString (strL "st"), .bulkString (strL "1-0"),
      .bulkString (strL "f"), .bulkString (strL "v")]) =
      .ok (.storeSet (strL "st") (.stream { key := strL "1-0", entries := [] }) none,
           strL "$3\r\n1-0\r\n") := rfl

/-! ## Claim theorems: replication (C5, C6) -/

/-- The canonical re-encoded SET command a master fans out: encoding
`build_bulk_string_array(["SET", k, v])` yields exactly
`*3\r\n$3\r\nSET\r\n$<|k|>\r\nk\r\n$<|v|>\r\nv\r\n`. -/
theorem encode_set_command (k v : List Char) :
    (redis_encode (build_bulk_string_array [strL "SET", k, v])).getD [] =
      strL "*3\r\n$3\r\nSET\r\n" ++ bulkEnc k ++ bulkEnc v := by
  have h1 : strL "*3\r\n$3\r\nSET\r\n" = '*' :: (natChars 3 ++ crlf ++ bulkEnc (strL "SET")) := by
    decide
  rw [h1]
  show '*' :: (natChars 3 ++ crlf ++ (bulkEnc (strL "SET") ++ (bulkEnc k ++ (bulkEnc v ++ [])))) = _
  rw [List.append_nil]
  simp [List.append_assoc]

/-- C5: a master processing `SET k v` writes the re-encoded canonical command
`*3\r\n$3\r\nSET\r\n$<|k|>\r\nk\r\n$<|v|>\r\nv\r\n` to every replica in its
replica map, and only then applies the mutation to its local store (the
event list places every `replicaWrite` before the `storeSet`, matching the
awaited `propagate` call preceding `process_set`); a slave processing the
same command performs only the local mutation and no fan-out. -/
theorem C5_master_fanout_slave_local (rid : List Char) (roff : Nat) (rs : List (List Char))
    (addr mid : List Char) (moff : Int) (k v : List Char) :
    processCommandSet (.master rid roff rs) (.array [.bulkString k, .bulkString v]) =
      .ok ((rs.map (fun a => Event.replicaWrite a
            (strL "*3\r\n$3\r\nSET\r\n" ++ bulkEnc k ++ bulkEnc v))) ++
           [.storeSet k (.string v) none], strL "+OK" ++ crlf) ∧
    processCommandSet (.slave addr mid moff) (.array [.bulkString k, .bulkString v]) =
      .ok ([.storeSet k (.string v) none], strL "+OK" ++ crlf) := by
  constructor
  · simp only [processCommandSet, process_set, Payload.toDisplay, RedisType.as_inner,
      List.head?_nil, List.tail_nil, encode_set_command]
  · rfl

/-- C6 counterexample: the handshake of a freshly configured replica
(`master_id = "?"`, `master_offset = -1`) listening on port 7000 does NOT
write the claimed four messages — the first message is the lower-case
`*1\r\n$4\r\nping\r\n`, not `*1\r\n$4\r\nPING\r\n`, and the second carries
the hard-coded literal `6380` rather than the replica's own port. -/
theorem C6_counterexample :
    handshakeMessages 7000 (.slave (strL "127.0.0.1:6379") (strL "?") (-1)) ≠
      [strL "*1\r\n$4\r\nPING\r\n",
       strL "*3\r\n$8\r\nREPLCONF\r\n$14\r\nlistening-port\r\n$4\r\n7000\r\n",
       strL "*3\r\n$8\r\nREPLCONF\r\n$4\r\ncapa\r\n$6\r\npsync2\r\n",
       strL "*3\r\n$5\r\nPSYNC\r\n$1\r\n?\r\n$2\r\n-1\r\n"] := by decide

/-- C6 amended: for every configured replica (any listening port, any master
address) with the initial `master_id = "?"` and `master_offset = -1`, the
handshake writes exactly four messages in this order: `*1\r\n$4\r\nping\r\n`
(lower-case), then `*3\r\n$8\r\nREPLCONF\r\n$14\r\nlistening-port\r\n$4\r\n
6380\r\n` with the hard-coded port text `6380` irrespective of the replica's
own listening port, then `*3\r\n$8\r\nREPLCONF\r\n$4\r\ncapa\r\n$6\r\n
psync2\r\n`, then `*3\r\n$5\r\nPSYNC\r\n$1\r\n?\r\n$2\r\n-1\r\n`. -/
theorem C6_amended (listening_port : Nat) (addr : List Char) :
    handshakeMessages listening_port (.slave addr (strL "?") (-1)) =
      [strL "*1\r\n$4\r\nping\r\n",
       strL "*3\r\n$8\r\nREPLCONF\r\n$14\r\nlistening-port\r\n$4\r\n6380\r\n",
       strL "*3\r\n$8\r\nREPLCONF\r\n$4\r\ncapa\r\n$6\r\npsync2\r\n",
       strL "*3\r\n$5\r\nPSYNC\r\n$1\r\n?\r\n$2\r\n-1\r\n"] := rfl

/-! ## The codec round trip (C2) -/

theorem psize_pos (p : Payload) : 1 ≤ psize p := by
  cases p <;> simp only [psize] <;> omega

theorem enc_ne_nil (p : Payload) (e : List Char) (h : redis_encode p = some e) : e ≠ [] := by
  cases p with
  | simpleString v =>
    simp only [redis_encode, Option.some.injEq] at h
    subst h; simp
  | bulkString v =>
    simp only [redis_encode, Option.some.injEq] at h
    subst h; simp
  | array elems =>
    cases hb : encodeElems elems with
    | none => rw [redis_encode, hb] at h; exact absurd h (by simp)
    | some body =>
      rw [redis_encode, hb] at h
      simp only [Option.some.injEq] at h
      subst h; simp
  | rdbFile bytes => simp [redis_encode] at h

/-- The element loop of the round trip: parsing the concatenated encodings of
`elems` (with any trailing bytes) element by element recovers `elems` and
consumes exactly the concatenation's length.  `IH` is the round-trip property
at fuel `n` for the individual elements. -/
theorem parseElems_encode (n : Nat)
    (IH : ∀ (p : Payload) (e t : List Char), encWF p = true → redis_encode p = some e →
      psize p ≤ n → from_charF n (e.headD ' ') (e ++ t) = .ok (p, e.length)) :
    ∀ (elems : List Payload) (body t : List Char), encWFList elems = true →
      encodeElems elems = some body → psizeList elems ≤ n →
      parseElemsWith (from_charF n) elems.length (body ++ t) = .ok (elems, body.length) := by
  intro elems
  induction elems with
  | nil =>
    intro body t _ hb _
    simp only [encodeElems, Option.some.injEq] at hb
    subst hb
    rfl
  | cons p ps ihp =>
    intro body t hwf hb hsize
    cases hep : redis_encode p with
    | none => simp [encodeElems, hep] at hb
    | some ep =>
      cases heps : encodeElems ps with
      | none => simp [encodeElems, hep, heps] at hb
      | some rest_b =>
        simp only [encodeElems, hep, heps, Option.some.injEq] at hb
        subst hb
        have hwfp : encWF p = true ∧ encWFList ps = true := by
          simpa [encWFList, Bool.and_eq_true] using hwf
        have hsp : psize p ≤ n ∧ psizeList ps ≤ n := by
          simp only [psizeList] at hsize
          have h1 := psize_pos p
          constructor <;> omega
        obtain ⟨c, ep', rfl⟩ : ∃ c ep', ep = c :: ep' := by
          cases ep with
          | nil => exact absurd rfl (enc_ne_nil p [] hep)
          | cons c ep' => exact ⟨c, ep', rfl⟩
        have hIH := IH p (c :: ep') (rest_b ++ t) hwfp.1 hep hsp.1
        simp only [List.headD_cons, List.cons_append] at hIH
        show parseElemsWith (from_charF n) (ps.length + 1) (((c :: ep') ++ rest_b) ++ t) =
          .ok (p :: ps, ((c :: ep') ++ rest_b).length)
        simp only [List.cons_append, List.append_assoc]
        simp only [parseElemsWith, List.head?_cons, hIH]
        rw [if_neg (by simp only [List.length_cons, List.length_append]; omega)]
        rw [show List.drop ((c :: ep').length) (c :: (ep' ++ (rest_b ++ t))) = rest_b ++ t from by
          simp only [List.length_cons, List.drop_succ_cons, List.drop_left]]
        simp only [ihp rest_b t hwfp.2 heps hsp.2]
        have hlen : rest_b.length + (c :: ep').length = (c :: (ep' ++ rest_b)).length := by
          simp only [List.length_cons, List.length_append]
          omega
        rw [hlen]

/-- Round trip at any sufficient fuel: decoding the encoding of a well-formed
payload (with any trailing bytes) returns the payload and consumes exactly
the encoding's length. -/
theorem parse_encode (fuel : Nat) :
    ∀ (p : Payload) (e t : List Char), encWF p = true → redis_encode p = some e →
      psize p ≤ fuel → from_charF fuel (e.headD ' ') (e ++ t) = .ok (p, e.length) := by
  induction fuel with
  | zero =>
    intro p e t _ _ hs
    have := psize_pos p
    omega
  | succ n ih =>
    intro p e t hwf henc hsize
    cases p with
    | simpleString v =>
      simp only [redis_encode, Option.some.injEq] at henc
      subst henc
      have hfree : crlfFree v = true := by simpa [encWF] using hwf
      show from_simple_string ('+' :: ((v ++ crlf) ++ t)) =
        .ok (.simpleString v, ('+' :: (v ++ crlf)).length)
      have hdrop : List.drop 1 ('+' :: ((v ++ crlf) ++ t)) = (v ++ crlf) ++ t := rfl
      simp only [from_simple_string, hdrop]
      rw [show (v ++ crlf) ++ t = v ++ ('\r' :: '\n' :: t) from by simp [crlf]]
      rw [splitOnceCRLF_append v t hfree]
      simp only [Except.ok.injEq, Prod.mk.injEq, true_and, List.length_cons, List.length_append,
        crlf, List.length_nil]
    | bulkString v =>
      simp only [redis_encode, Option.some.injEq] at henc
      subst henc
      show from_bulk_string ('$' :: ((natChars v.length ++ crlf ++ v ++ crlf) ++ t)) =
        .ok (.bulkString v, ('$' :: (natChars v.length ++ crlf ++ v ++ crlf)).length)
      have hdrop : List.drop 1 ('$' :: ((natChars v.length ++ crlf ++ v ++ crlf) ++ t)) =
          (natChars v.length ++ crlf ++ v ++ crlf) ++ t := rfl
      simp only [from_bulk_string, hdrop]
      rw [show (natChars v.length ++ crlf ++ v ++ crlf) ++ t =
            natChars v.length ++ ('\r' :: '\n' :: (v ++ ('\r' :: '\n' :: t))) from by
        simp [crlf, List.append_assoc]]
      rw [splitOnceCRLF_append _ _ (crlfFree_natChars v.length)]
      simp only [parseNat?_natChars]
      rw [if_neg (by simp only [List.length_cons, List.length_append]; omega)]
      rw [show (v ++ ('\r' :: '\n' :: t)).take v.length = v from List.take_left v _]
      simp only [Except.ok.injEq, Prod.mk.injEq, true_and, List.length_cons, List.length_append,
        crlf, List.length_nil]
      omega
    | array elems =>
      cases hb : encodeElems elems with
      | none => rw [redis_encode, hb] at henc; exact absurd henc (by simp)
      | some body =>
        rw [redis_encode, hb] at henc
        simp only [Option.some.injEq] at henc
        subst henc
        have hwfl : encWFList elems = true := by simpa [encWF] using hwf
        have hsl : psizeList elems ≤ n := by
          simp only [psize] at hsize
          omega
        show from_arrayWith (from_charF n)
            ('*' :: ((natChars elems.length ++ crlf ++ body) ++ t)) =
          .ok (.array elems, ('*' :: (natChars elems.length ++ crlf ++ body)).length)
        have hdrop : List.drop 1 ('*' :: ((natChars elems.length ++ crlf ++ body) ++ t)) =
            (natChars elems.length ++ crlf ++ body) ++ t := rfl
        simp only [from_arrayWith, hdrop]
        rw [show (natChars elems.length ++ crlf ++ body) ++ t =
              natChars elems.length ++ ('\r' :: '\n' :: (body ++ t)) from by
          simp [crlf, List.append_assoc]]
        rw [splitOnceCRLF_append _ _ (crlfFree_natChars elems.length)]
        simp only [parseNat?_natChars]
        rw [parseElems_encode n ih elems body t hwfl hb hsl]
        simp only [Except.ok.injEq, Prod.mk.injEq, true_and, List.length_cons, List.length_append,
          crlf, List.length_nil]
        omega
    | rdbFile bytes => simp [encWF] at hwf

/-- The element loop of `psize_le_enc`: the total node count of a list of
payloads is bounded by the length of its concatenated encodings. -/
theorem psizeList_le_enc_loop (n : Nat)
    (ih : ∀ (p : Payload) (e : List Char), psize p ≤ n → redis_encode p = some e →
      psize p ≤ e.length) :
    ∀ (elems : List Payload) (body : List Char), encodeElems elems = some body →
      psizeList elems ≤ n → psizeList elems ≤ body.length := by
  intro elems
  induction elems with
  | nil => intro body _ _; simp [psizeList]
  | cons p ps ihp =>
    intro body hb hsize
    cases hep : redis_encode p with
    | none => simp [encodeElems, hep] at hb
    | some ep =>
      cases heps : encodeElems ps with
      | none => simp [encodeElems, hep, heps] at hb
      | some rest_b =>
        simp only [encodeElems, hep, heps, Option.some.injEq] at hb
        subst hb
        simp only [psizeList] at hsize ⊢
        have h0 := psize_pos p
        have h1 : psize p ≤ ep.length := ih p ep (by omega) hep
        have h2 : psizeList ps ≤ rest_b.length := ihp rest_b heps (by omega)
        simp only [List.length_append]
        omega

/-- The node count of a payload is bounded by the length of its encoding, so
`buffer length + 1` is always enough parser fuel for a round trip. -/
theorem psize_le_enc (n : Nat) :
    ∀ (p : Payload) (e : List Char), psize p ≤ n → redis_encode p = some e →
      psize p ≤ e.length := by
  induction n with
  | zero =>
    intro p e hs _
    have := psize_pos p
    omega
  | succ n ih =>
    intro p e hs henc
    cases p with
    | array elems =>
      cases hb : encodeElems elems with
      | none => rw [redis_encode, hb] at henc; exact absurd henc (by simp)
      | some body =>
        rw [redis_encode, hb] at henc
        simp only [Option.some.injEq] at henc
        subst henc
        have hpl : psizeList elems ≤ body.length := by
          refine psizeList_le_enc_loop n ih elems body hb ?_
          simp only [psize] at hs
          omega
        simp only [psize, List.length_cons, List.length_append]
        omega
    | simpleString v =>
      have h1 := List.length_pos.mpr (enc_ne_nil _ e henc)
      simp only [psize]
      omega
    | bulkString v =>
      have h1 := List.length_pos.mpr (enc_ne_nil _ e henc)
      simp only [psize]
      omega
    | rdbFile bytes => simp [redis_encode] at henc

/-- C2 counterexample: the claim quantifies over EVERY payload of the
SimpleString, BulkString or Array variant, but a simple string whose body
contains a CRLF does not round-trip: `SimpleString("a\r\nb")` encodes to
`+a\r\nb\r\n` (9 bytes), which decodes to `(SimpleString("a"), 4)` — the
decoder stops at the first CRLF — not to the original payload with 9 bytes
consumed. -/
theorem C2_counterexample :
    redis_encode (.simpleString (strL "a\r\nb")) = some (strL "+a\r\nb\r\n") ∧
    from_byte ((strL "+a\r\nb\r\n").headD ' ') (strL "+a\r\nb\r\n") =
      .ok (.simpleString (strL "a"), 4) ∧
    from_byte ((strL "+a\r\nb\r\n").headD ' ') (strL "+a\r\nb\r\n") ≠
      .ok (.simpleString (strL "a\r\nb"), (strL "+a\r\nb\r\n").length) := by
  refine ⟨rfl, rfl, fun h => ?_⟩
  have h4 : from_byte ((strL "+a\r\nb\r\n").headD ' ') (strL "+a\r\nb\r\n") =
      .ok (.simpleString (strL "a"), 4) := rfl
  rw [h4] at h
  have h49 := congrArg
    (fun r => match r with | Except.ok (_, nn) => nn | Except.error _ => 0) h
  simp only at h49
  exact absurd h49 (by decide)

/-- C2 amended: for every payload of the SimpleString, BulkString or Array
variant whose simple-string bodies (at any depth) are CRLF-free and that
contains no RdbFile component (`encWF`), decoding the encoding returns the
payload together with a consumed count equal to the encoding's length:
`from_byte` applied to `encode p` yields `(p, |encode p|)`. -/
theorem C2_decode_encode (p : Payload) (e : List Char) (hwf : encWF p = true)
    (henc : redis_encode p = some e) :
    from_byte (e.headD ' ') e = .ok (p, e.length) := by
  have hle : psize p ≤ e.length := psize_le_enc (psize p) p e le_rfl henc
  have h := parse_encode (e.length + 1) p e [] hwf henc (by omega)
  rw [List.append_nil] at h
  exact h

/-- Witness for `C2_decode_encode` at the concrete payload
`build_bulk_string_array(["SET", "key"])` — the spec's own round-trip
example class — whose encoding is `*2\r\n$3\r\nSET\r\n$3\r\nkey\r\n`. -/
theorem C2_decode_encode_witness :
    from_byte ((strL "*2\r\n$3\r\nSET\r\n$3\r\nkey\r\n").headD ' ')
        (strL "*2\r\n$3\r\nSET\r\n$3\r\nkey\r\n") =
      .ok (build_bulk_string_array [strL "SET", strL "key"],
           (strL "*2\r\n$3\r\nSET\r\n$3\r\nkey\r\n").length) :=
  C2_decode_encode (build_bulk_string_array [strL "SET", strL "key"])
    (strL "*2\r\n$3\r\nSET\r\n$3\r\nkey\r\n") (by decide) (by decide)

end RustRedis
